import Mathlib

/-!
# protr, `src/util.c`: the routine `s2c`

`s2c` receives an R character vector, takes its first string and returns a
character vector holding one single-byte string per byte of that string.

The C routine is embedded as a state-passing function over an explicit
machine state.  The services of the R runtime and of libc that the routine
calls (`STRING_ELT`, `CHAR`, `strlen`, `NEW_CHARACTER`, `mkChar`,
`SET_STRING_ELT`, `PROTECT`, `UNPROTECT`) are modelled with their range
checks made explicit: an access outside an object is a `Fault`.
Exhaustion of memory or of the protection stack is not modelled.
-/

namespace Protr

/-! ## Data model -/

/-- One C `char`, a byte. -/
abbrev Byte := UInt8

/-- An R `CHARSXP`: the payload bytes of a string.  The C buffer that `CHAR`
exposes is the payload followed by a terminating zero byte. -/
structure CHARSXP where
  bytes : List Byte
deriving DecidableEq, Repr

/-- The value every slot of a fresh character vector holds (`R_BlankString`). -/
def R_BlankString : CHARSXP := ⟨[]⟩

/-- Ways in which a run leaves the defined behaviour of C or raises an R
error. -/
inductive Fault where
  /-- an index outside the vector in `STRING_ELT` or `SET_STRING_ELT` -/
  | subscript
  /-- a read or `strlen` scan that leaves a C buffer -/
  | overrun
  /-- a vector of negative length was requested -/
  | negativeLength
  /-- the increment `i++` leaves the range of `int` -/
  | intOverflow
  /-- an `UNPROTECT` of more entries than the stack holds -/
  | stackImbalance
  /-- the loop did not finish within the iterations granted to it -/
  | fuel
deriving DecidableEq, Repr

/-- The memory accesses and runtime calls of the loop, in the order they
happen.  The calls that may allocate record the protection stack they ran
under. -/
inductive Event where
  /-- the read `string[i]` -/
  | readString (i : Int)
  /-- the write `mot[k] = _` -/
  | writeMot (k : Nat)
  /-- a call of `mkChar`, under protection stack `pp` -/
  | mkChar (pp : List Nat)
  /-- the call `SET_STRING_ELT(chaine, i, _)` on a vector of `n` slots, under
  protection stack `pp` -/
  | setStringElt (i : Int) (n : Nat) (pp : List Nat)
deriving DecidableEq, Repr

/-- What `s2c` finds of the R session on entry. -/
structure Session where
  /-- the protection stack, top first: addresses of protected objects -/
  ppstack : List Nat
  /-- the next unused heap address -/
  heapTop : Nat
deriving DecidableEq, Repr

/-- The machine state of a run of `s2c`. -/
structure State where
  /-- the argument vector `seq`; `string` points into its element 0 -/
  seq : List CHARSXP
  /-- the protection stack, top first -/
  ppstack : List Nat
  /-- the next unused heap address -/
  heapTop : Nat
  /-- local `int lseq` -/
  lseq : Int
  /-- local `int i` -/
  i : Int
  /-- local `char mot[2]` -/
  mot : List Byte
  /-- local `SEXP chaine`: the address of the result vector -/
  chaine : Nat
  /-- the slots of the vector at address `chaine` -/
  vec : List CHARSXP
  /-- the events of the loop so far -/
  trace : List Event
deriving DecidableEq, Repr

/-! ## The runtime services `s2c` calls -/

/-- Largest value of a C `int`. -/
def INT_MAX : Int := 2 ^ 31 - 1

/-- The call `STRING_ELT(v, i)`. -/
def STRING_ELT (v : List CHARSXP) (i : Nat) : Except Fault CHARSXP :=
  match v[i]? with
  | some x => .ok x
  | none => .error .subscript

/-- The call `CHAR(x)`: the zero-terminated buffer of a string. -/
def CHAR (x : CHARSXP) : List Byte := x.bytes ++ [0]

/-- The call `strlen(buf)`: the number of bytes before the first zero byte. -/
def strlen : List Byte → Except Fault Nat
  | [] => .error .overrun
  | b :: rest =>
    if b = 0 then .ok 0
    else match strlen rest with
      | .ok n => .ok (n + 1)
      | .error e => .error e

/-- The conversion of a `size_t` to `int` done by the assignment
`lseq = strlen(string)`: reduction modulo `2^32`, read as two's complement. -/
def toInt (n : Nat) : Int :=
  if n % 2 ^ 32 < 2 ^ 31 then ((n % 2 ^ 32 : Nat) : Int)
  else ((n % 2 ^ 32 : Nat) : Int) - 2 ^ 32

/-- The call `NEW_CHARACTER(n)`: the slots of a fresh character vector of
length `n`, an R error when `n` is negative. -/
def NEW_CHARACTER (n : Int) : Except Fault (List CHARSXP) :=
  if n < 0 then .error .negativeLength
  else .ok (List.replicate n.toNat R_BlankString)

/-- The read `buf[i]`. -/
def readAt (buf : List Byte) (i : Int) : Except Fault Byte :=
  if i < 0 then .error .overrun
  else match buf[i.toNat]? with
    | some b => .ok b
    | none => .error .overrun

/-- The call `mkChar(buf)`: the R string of the bytes of `buf` before its
first zero byte. -/
def mkChar (buf : List Byte) : Except Fault CHARSXP :=
  match strlen buf with
  | .ok n => .ok ⟨buf.take n⟩
  | .error e => .error e

/-- The call `SET_STRING_ELT(v, i, x)`. -/
def SET_STRING_ELT (v : List CHARSXP) (i : Int) (x : CHARSXP) :
    Except Fault (List CHARSXP) :=
  if i < 0 then .error .subscript
  else if i.toNat < v.length then .ok (v.set i.toNat x)
  else .error .subscript

/-- The call `PROTECT(a)`. -/
def PROTECT (a : Nat) (pp : List Nat) : List Nat := a :: pp

/-- The call `UNPROTECT(n)`. -/
def UNPROTECT (n : Nat) (pp : List Nat) : Except Fault (List Nat) :=
  if n ≤ pp.length then .ok (pp.drop n) else .error .stackImbalance

/-! ## The routine -/

/-- The state after the declarations and the three statements before the
loop, with `i = 0` set by the loop header. -/
def enter (seq : List CHARSXP) (R : Session) : Except Fault State :=
  -- string = (char *) CHAR(STRING_ELT(seq, 0));
  match STRING_ELT seq 0 with
  | .error e => .error e
  | .ok x =>
    -- lseq = strlen(string);
    match strlen (CHAR x) with
    | .error e => .error e
    | .ok n =>
      let lseq := toInt n
      -- PROTECT(chaine = NEW_CHARACTER(lseq));
      match NEW_CHARACTER lseq with
      | .error e => .error e
      | .ok vec =>
        -- char mot[2] = {'\0', '\0'}; and i = 0 of the loop header
        .ok { seq := seq
              ppstack := PROTECT R.heapTop R.ppstack
              heapTop := R.heapTop + 1
              lseq := lseq
              i := 0
              mot := [0, 0]
              chaine := R.heapTop
              vec := vec
              trace := [] }

/-- The loop body: `mot[0] = string[i]; SET_STRING_ELT(chaine, i, mkChar(mot));`. -/
def body (st : State) : Except Fault State :=
  -- string is the pointer CHAR(STRING_ELT(seq, 0)) taken before the loop
  match STRING_ELT st.seq 0 with
  | .error e => .error e
  | .ok x =>
    -- mot[0] = string[i];
    match readAt (CHAR x) st.i with
    | .error e => .error e
    | .ok b =>
      let mot := st.mot.set 0 b
      -- SET_STRING_ELT(chaine, i, mkChar(mot));
      match mkChar mot with
      | .error e => .error e
      | .ok c =>
        match SET_STRING_ELT st.vec st.i c with
        | .error e => .error e
        | .ok vec =>
          .ok { st with
                mot := mot
                vec := vec
                trace := st.trace ++
                  [Event.readString st.i, Event.writeMot 0, Event.mkChar st.ppstack,
                   Event.setStringElt st.i st.vec.length st.ppstack] }

/-- The loop increment `i++`. -/
def incr (st : State) : Except Fault State :=
  if st.i + 1 ≤ INT_MAX then .ok { st with i := st.i + 1 } else .error .intOverflow

/-- One turn of the loop when its test `i < lseq` holds: body, then `i++`. -/
def turn (st : State) : Except Fault State :=
  match body st with
  | .error e => .error e
  | .ok st1 => incr st1

/-- The state after `k` turns of the loop in a row, starting from `st`. -/
def turns : Nat → State → Except Fault State
  | 0, st => .ok st
  | k + 1, st =>
    match turn st with
    | .error e => .error e
    | .ok st1 => turns k st1

/-- The loop `for (i = 0; i < lseq; i++) body`, entered with `i` already set,
allowed at most `fuel` turns. -/
def loop : Nat → State → Except Fault State
  | 0, st => if st.i < st.lseq then .error .fuel else .ok st
  | fuel + 1, st =>
    if st.i < st.lseq then
      match turn st with
      | .error e => .error e
      | .ok st1 => loop fuel st1
    else .ok st

/-- The statements after the loop: `UNPROTECT(1); return(chaine);`.  Returns
the slots of the vector `chaine` points to, and the final state. -/
def leave (st : State) : Except Fault (List CHARSXP × State) :=
  -- UNPROTECT(1); return(chaine);
  match UNPROTECT 1 st.ppstack with
  | .error e => .error e
  | .ok pp => .ok (st.vec, { st with ppstack := pp })

/-- The run of `s2c(seq)` in session `R`.  The loop is granted `lseq` turns:
its counter rises by one per turn and `lseq` is not assigned in the loop. -/
def s2c (seq : List CHARSXP) (R : Session) : Except Fault (List CHARSXP × State) :=
  match enter seq R with
  | .error e => .error e
  | .ok st0 =>
    match loop st0.lseq.toNat st0 with
    | .error e => .error e
    | .ok st1 => leave st1

/-- The value `s2c` returns, `none` when the run faults. -/
def s2cValue (seq : List CHARSXP) (R : Session) : Option (List CHARSXP) :=
  match s2c seq R with
  | .ok (v, _) => some v
  | .error _ => none

/-- The final machine state of a run, `none` when the run faults. -/
def s2cFinal (seq : List CHARSXP) (R : Session) : Option State :=
  match s2c seq R with
  | .ok (_, st) => some st
  | .error _ => none

/-! ## Vocabulary of the specification -/

/-- The single-byte string of byte `b`. -/
def single (b : Byte) : CHARSXP := ⟨[b]⟩

/-- The bytes of the elements of a character vector, in order. -/
def concat (v : List CHARSXP) : List Byte := (v.map CHARSXP.bytes).flatten

/-- A string the R runtime can hold: no zero byte in its payload, and a length
that an `int` holds (R refuses to build a string of more than `2^31 - 1`
bytes). -/
def ValidString (s : List Byte) : Prop :=
  (∀ b ∈ s, b ≠ 0) ∧ (s.length : Int) ≤ INT_MAX

instance (s : List Byte) : Decidable (ValidString s) := by
  unfold ValidString; infer_instance

/-- A session with an empty protection stack. -/
def session0 : Session := ⟨[], 0⟩

/-- The UTF-8 encoding of a text, as a list of bytes. -/
def utf8 (t : String) : List Byte := t.toUTF8.data.toList

/-- An event stays inside the objects it touches: a read of `string` before
the terminator of a string of `len` bytes, a write to cell 0 of `mot`, a
store into one of the `n` slots of the result vector. -/
def Event.inRange (len n : Nat) : Event → Prop
  | .readString i => 0 ≤ i ∧ i < len
  | .writeMot k => k = 0
  | .mkChar _ => True
  | .setStringElt i m _ => 0 ≤ i ∧ i < m ∧ m = n

instance (len n : Nat) (e : Event) : Decidable (e.inRange len n) := by
  cases e <;> unfold Event.inRange <;> infer_instance

/-- The bytes of a text of ASCII characters. -/
def ascii (cs : List Char) : List Byte := cs.map Char.toUInt8

/-! ## Closed form of a run -/

/-- The events of one turn of the loop at counter `j`, for a result vector of
`n` slots and protection stack `pp`. -/
def turnEvents (pp : List Nat) (n : Nat) (j : Nat) : List Event :=
  [Event.readString j, Event.writeMot 0, Event.mkChar pp, Event.setStringElt j n pp]

/-- The events of `cnt` consecutive turns starting at counter `k`. -/
def loopEvents (pp : List Nat) (n : Nat) : Nat → Nat → List Event
  | _, 0 => []
  | k, cnt + 1 => turnEvents pp n k ++ loopEvents pp n (k + 1) cnt

/-- The scratch buffer after the bytes `todo` have passed through cell 0. -/
def motAfter (mot : List Byte) (todo : List Byte) : List Byte :=
  todo.foldl (fun m b => m.set 0 b) mot

/-- The state in which a run ends that found the bytes `p` before the first
zero byte of its string. -/
def finalState (seq : List CHARSXP) (R : Session) (p : List Byte) : State :=
  { seq := seq
    ppstack := R.ppstack
    heapTop := R.heapTop + 1
    lseq := (p.length : Nat)
    i := (p.length : Nat)
    mot := motAfter [0, 0] p
    chaine := R.heapTop
    vec := p.map single
    trace := loopEvents (R.heapTop :: R.ppstack) p.length 0 p.length }

/-- The state `st` with the elements after the first of its argument vector
replaced by `r`. -/
def reseat (r : List CHARSXP) (st : State) : State :=
  { st with seq := st.seq.take 1 ++ r }

/-- The part of a machine state that the computation of the result reads and
writes: the argument, the locals `lseq`, `i` and `mot`, and the slots of the
result vector.  Left out are the protection stack, the heap addresses and
the trace. -/
def core (st : State) : List CHARSXP × Int × Int × List Byte × List CHARSXP :=
  (st.seq, st.lseq, st.i, st.mot, st.vec)

/-- The session a run leaves behind for the next call. -/
def sessionAfter (st : State) : Session := ⟨st.ppstack, st.heapTop⟩

/-- The result vector at address `a` is protected while the event happens:
a call that may allocate runs under a protection stack that holds `a`. -/
def Event.guardedBy (a : Nat) : Event → Prop
  | .mkChar pp => a ∈ pp
  | .setStringElt _ _ pp => a ∈ pp
  | _ => True

instance (a : Nat) (e : Event) : Decidable (e.guardedBy a) := by
  cases e <;> unfold Event.guardedBy <;> infer_instance

/-- The number of `SET_STRING_ELT` events in a trace that store into slot
`j`. -/
def storesTo (j : Nat) (tr : List Event) : Nat :=
  tr.countP (fun e =>
    match e with
    | .setStringElt i _ _ => decide (i = (j : Int))
    | _ => false)

/-- The state in which the loop is entered when `strlen` found `n` bytes. -/
def entryState (seq : List CHARSXP) (R : Session) (n : Nat) : State :=
  { seq := seq
    ppstack := R.heapTop :: R.ppstack
    heapTop := R.heapTop + 1
    lseq := (n : Nat)
    i := 0
    mot := [0, 0]
    chaine := R.heapTop
    vec := List.replicate n R_BlankString
    trace := [] }

/-! ## Lemmas on the run -/

theorem strlen_append_zero (p q : List Byte) (hp : ∀ b ∈ p, b ≠ 0) :
    strlen (p ++ 0 :: q) = .ok p.length := by
  induction p with
  | nil => simp [strlen]
  | cons a p ih =>
    have ha : a ≠ 0 := hp a (by simp)
    have ih1 := ih (fun b hb => hp b (by simp [hb]))
    simp [strlen, ha, ih1]

theorem toInt_of_le (n : Nat) (h : (n : Int) ≤ INT_MAX) : toInt n = n := by
  have h1 : n < 2 ^ 31 := by unfold INT_MAX at h; omega
  have h2 : n % 2 ^ 32 = n := Nat.mod_eq_of_lt (by omega)
  unfold toInt
  rw [h2, if_pos h1]

theorem mkChar_cell (b m : Byte) (hb : b ≠ 0) :
    mkChar (List.set [m, 0] 0 b) = .ok (single b) := by
  simp [mkChar, strlen, hb, single]

theorem readAt_mid (done rest : List Byte) (b : Byte) :
    readAt (done ++ b :: rest) (done.length : Nat) = .ok b := by
  have h : ¬ ((done.length : Int) < 0) := by omega
  have h1 : (done ++ b :: rest)[done.length]? = some b := by
    rw [List.getElem?_append_right (Nat.le_refl _)]; simp
  simp only [readAt, h, if_false, Int.toNat_ofNat, h1]

theorem set_mid (done : List Byte) (b : Byte) (k : Nat) :
    SET_STRING_ELT (done.map single ++ List.replicate (k + 1) R_BlankString)
        (done.length : Nat) (single b)
      = .ok ((done ++ [b]).map single ++ List.replicate k R_BlankString) := by
  have h : ¬ ((done.length : Int) < 0) := by omega
  simp [SET_STRING_ELT, h, List.replicate_succ]

theorem turn_spec (x : CHARSXP) (rest : List CHARSXP) (st : State)
    (done todo q : List Byte) (b m : Byte)
    (hbuf : CHAR x = done ++ b :: (todo ++ 0 :: q)) (hb : b ≠ 0)
    (hlen : (done.length : Int) + 1 ≤ INT_MAX)
    (hseq : st.seq = x :: rest) (hi : st.i = (done.length : Nat)) (hmot : st.mot = [m, 0])
    (hvec : st.vec = done.map single ++ List.replicate (todo.length + 1) R_BlankString) :
    turn st = .ok { st with
      i := st.i + 1
      mot := [b, 0]
      vec := (done ++ [b]).map single ++ List.replicate todo.length R_BlankString
      trace := st.trace ++
        turnEvents st.ppstack (done.length + (todo.length + 1)) done.length } := by
  have h1 : STRING_ELT st.seq 0 = .ok x := by simp [STRING_ELT, hseq]
  have h2 : readAt (CHAR x) st.i = .ok b := by rw [hbuf, hi]; exact readAt_mid _ _ _
  have h3 : mkChar (st.mot.set 0 b) = .ok (single b) := by
    rw [hmot]; exact mkChar_cell b m hb
  have h4 : SET_STRING_ELT st.vec st.i (single b)
      = .ok ((done ++ [b]).map single ++ List.replicate todo.length R_BlankString) := by
    rw [hvec, hi]; exact set_mid _ _ _
  have h5 : st.mot.set 0 b = [b, 0] := by rw [hmot]; rfl
  have h6 : st.i + 1 ≤ INT_MAX := by rw [hi]; exact hlen
  have h7 : st.vec.length = done.length + (todo.length + 1) := by simp [hvec]
  rw [hi] at h2 h4 h6
  rw [h5] at h3
  simp only [turn, body, h1, h2, h3, h4, h5, incr, h6, if_true, turnEvents, h7, hi]

theorem loop_spec (x : CHARSXP) (rest : List CHARSXP) (q : List Byte) :
    ∀ (todo done : List Byte) (st : State) (m : Byte),
      CHAR x = done ++ (todo ++ 0 :: q) →
      (∀ b ∈ todo, b ≠ 0) →
      ((done.length + todo.length : Nat) : Int) ≤ INT_MAX →
      st.seq = x :: rest →
      st.lseq = ((done.length + todo.length : Nat) : Int) →
      st.i = (done.length : Nat) →
      st.mot = [m, 0] →
      st.vec = done.map single ++ List.replicate todo.length R_BlankString →
      loop todo.length st = .ok { st with
        i := st.lseq
        mot := motAfter st.mot todo
        vec := (done ++ todo).map single
        trace := st.trace ++
          loopEvents st.ppstack (done.length + todo.length) done.length todo.length } := by
  intro todo
  induction todo with
  | nil =>
    intro done st m _ _ _ _ hl hi _ hvec
    have hlt : ¬ (st.i < st.lseq) := by rw [hl, hi]; simp
    have hil : st.lseq = st.i := by rw [hl, hi]; simp
    simp only [loop, List.length_nil, hlt, if_false, motAfter, List.foldl_nil, loopEvents,
      List.append_nil]
    cases st
    simp_all
  | cons b t ih =>
    intro done st m hbuf hnz hlen hseq hl hi hmot hvec
    have hb : b ≠ 0 := hnz b (by simp)
    have hlt : st.i < st.lseq := by
      rw [hl, hi]; simp only [List.length_cons]; omega
    have hlen1 : (done.length : Int) + 1 ≤ INT_MAX := by
      simp only [List.length_cons] at hlen; omega
    have ht := turn_spec x rest st done t q b m hbuf hb hlen1 hseq hi hmot hvec
    have hrec := ih (done ++ [b])
      { st with
        i := st.i + 1
        mot := [b, 0]
        vec := (done ++ [b]).map single ++ List.replicate t.length R_BlankString
        trace := st.trace ++
          turnEvents st.ppstack (done.length + (t.length + 1)) done.length } b
      (by simpa using hbuf)
      (fun c hc => hnz c (by simp [hc]))
      (by simp only [List.length_cons, List.length_append, List.length_nil] at hlen ⊢; omega)
      hseq
      (by simp only [hl, List.length_cons, List.length_append, List.length_nil]; congr 1; omega)
      (by simp only [hi, List.length_append, List.length_cons, List.length_nil]; omega)
      rfl rfl
    simp only [loop, List.length_cons, hlt, if_true, ht, hrec]
    have e1 : (done ++ [b]).length + t.length = done.length + (t.length + 1) := by
      simp only [List.length_append, List.length_cons, List.length_nil]; omega
    have e2 : (done ++ [b]).length = done.length + 1 := by simp
    have e3 : done.length + 1 + t.length = done.length + (t.length + 1) := by omega
    simp only [e1, e2, e3, motAfter, hmot, List.foldl_cons, List.set_cons_zero, loopEvents,
      List.append_assoc, List.singleton_append]

theorem s2c_run (x : CHARSXP) (rest : List CHARSXP) (R : Session) (p q : List Byte)
    (hbuf : CHAR x = p ++ 0 :: q) (hnz : ∀ b ∈ p, b ≠ 0)
    (hlen : (p.length : Int) ≤ INT_MAX) :
    s2c (x :: rest) R = .ok (p.map single, finalState (x :: rest) R p) := by
  have h1 : STRING_ELT (x :: rest) 0 = .ok x := by simp [STRING_ELT]
  have h2 : strlen (CHAR x) = .ok p.length := by
    rw [hbuf]; exact strlen_append_zero p q hnz
  have h3 : toInt p.length = (p.length : Nat) := toInt_of_le _ hlen
  have h4 : NEW_CHARACTER (p.length : Nat) = .ok (List.replicate p.length R_BlankString) := by
    have : ¬ ((p.length : Int) < 0) := by omega
    simp only [NEW_CHARACTER, this, if_false, Int.toNat_ofNat]
  have h5 := loop_spec x rest q p []
    { seq := x :: rest
      ppstack := PROTECT R.heapTop R.ppstack
      heapTop := R.heapTop + 1
      lseq := (p.length : Nat)
      i := 0
      mot := [0, 0]
      chaine := R.heapTop
      vec := List.replicate p.length R_BlankString
      trace := [] } 0
    (by simpa using hbuf) hnz (by simpa using hlen) rfl (by simp) (by simp) rfl (by simp)
  simp only [PROTECT] at h5
  simp only [s2c, enter, h1, h2, h3, h4, Int.toNat_ofNat, PROTECT, h5, leave, UNPROTECT]
  simp [finalState]

theorem s2c_valid (s : List Byte) (rest : List CHARSXP) (R : Session) (h : ValidString s) :
    s2c (⟨s⟩ :: rest) R = .ok (s.map single, finalState (⟨s⟩ :: rest) R s) :=
  s2c_run ⟨s⟩ rest R s [] rfl h.1 h.2

theorem s2cValue_valid (s : List Byte) (rest : List CHARSXP) (R : Session)
    (h : ValidString s) : s2cValue (⟨s⟩ :: rest) R = some (s.map single) := by
  simp only [s2cValue, s2c_valid s rest R h]

theorem concat_map_single (s : List Byte) : concat (s.map single) = s := by
  induction s with
  | nil => rfl
  | cons b t ih =>
    simp only [concat, List.map_cons, List.flatten_cons] at ih ⊢
    rw [ih]; rfl

theorem motAfter_cell (p : List Byte) : ∀ a : Byte, ∃ c, motAfter [a, 0] p = [c, 0] := by
  induction p with
  | nil => intro a; exact ⟨a, rfl⟩
  | cons b t ih =>
    intro a
    obtain ⟨c, hc⟩ := ih b
    exact ⟨c, by simpa [motAfter] using hc⟩

/-! ## The claims -/

/-- C1: round trip.  For every string `s` the R runtime can hold, passed as
the first element of the argument, `s2c` returns a vector, and the bytes of
its elements, concatenated in order, are exactly `s`. -/
theorem s2c_round_trip (s : List Byte) (rest : List CHARSXP) (R : Session)
    (h : ValidString s) :
    ∃ v, s2cValue (⟨s⟩ :: rest) R = some v ∧ concat v = s :=
  ⟨s.map single, s2cValue_valid s rest R h, concat_map_single s⟩

theorem s2c_round_trip_witness :
    ValidString (ascii ['a', 'b', 'c']) ∧
      ∃ v, s2cValue [⟨ascii ['a', 'b', 'c']⟩] session0 = some v ∧
        concat v = ascii ['a', 'b', 'c'] :=
  ⟨by decide, s2c_round_trip _ _ _ (by decide)⟩

/-- C2: element-wise correctness.  For every valid string `s`, `s2c` returns a
vector whose element `i`, for every `i < len(s)`, is the one-byte string of
byte `i` of `s`; and `s2c("a") = ["a"]`, `s2c("abc") = ["a", "b", "c"]`. -/
theorem s2c_elementwise (s : List Byte) (rest : List CHARSXP) (R : Session)
    (h : ValidString s) :
    (∃ v, s2cValue (⟨s⟩ :: rest) R = some v ∧
      ∀ (i : Nat) (hi : i < s.length), v[i]? = some ⟨[s[i]]⟩) ∧
    s2cValue [⟨ascii ['a']⟩] R = some [⟨ascii ['a']⟩] ∧
    s2cValue [⟨ascii ['a', 'b', 'c']⟩] R
      = some [⟨ascii ['a']⟩, ⟨ascii ['b']⟩, ⟨ascii ['c']⟩] := by
  refine ⟨⟨s.map single, s2cValue_valid s rest R h, ?_⟩, ?_, ?_⟩
  · intro i hi
    simp [single, hi]
  · rw [s2cValue_valid _ [] R (by decide)]; rfl
  · rw [s2cValue_valid _ [] R (by decide)]; rfl

theorem s2c_elementwise_witness :
    ValidString (ascii ['x', 'y']) ∧
      ((∃ v, s2cValue [⟨ascii ['x', 'y']⟩] session0 = some v ∧
        ∀ (i : Nat) (hi : i < (ascii ['x', 'y']).length),
          v[i]? = some ⟨[(ascii ['x', 'y'])[i]]⟩) ∧
      s2cValue [⟨ascii ['a']⟩] session0 = some [⟨ascii ['a']⟩] ∧
      s2cValue [⟨ascii ['a', 'b', 'c']⟩] session0
        = some [⟨ascii ['a']⟩, ⟨ascii ['b']⟩, ⟨ascii ['c']⟩]) :=
  ⟨by decide, s2c_elementwise _ _ _ (by decide)⟩

/-- C3: length.  For every valid string `s`, `s2c` returns a vector of exactly
`len(s)` elements, `len(s)` being the number of bytes of `s`. -/
theorem s2c_length (s : List Byte) (rest : List CHARSXP) (R : Session)
    (h : ValidString s) :
    ∃ v, s2cValue (⟨s⟩ :: rest) R = some v ∧ v.length = s.length :=
  ⟨s.map single, s2cValue_valid s rest R h, by simp⟩

theorem s2c_length_witness :
    ValidString (ascii ['p', 'r', 'o', 't', 'r']) ∧
      ∃ v, s2cValue [⟨ascii ['p', 'r', 'o', 't', 'r']⟩] session0 = some v ∧
        v.length = (ascii ['p', 'r', 'o', 't', 'r']).length :=
  ⟨by decide, s2c_length _ _ _ (by decide)⟩

/-- C4: every element has length exactly 1.  For every valid string `s`, each
element of the vector `s2c` returns consists of exactly one byte, and that
byte is not zero; cell 1 of the scratch buffer `mot` is zero when the
routine returns. -/
theorem s2c_elements_single (s : List Byte) (rest : List CHARSXP) (R : Session)
    (h : ValidString s) :
    ∃ v st, s2c (⟨s⟩ :: rest) R = .ok (v, st) ∧
      (∀ x ∈ v, x.bytes.length = 1 ∧ ∀ b ∈ x.bytes, b ≠ 0) ∧
      st.mot.length = 2 ∧ st.mot[1]? = some 0 := by
  refine ⟨_, _, s2c_valid s rest R h, ?_, ?_⟩
  · intro x hx
    obtain ⟨b, hb, rfl⟩ := List.mem_map.mp hx
    exact ⟨rfl, fun c hc => by
      have : c = b := by simpa [single] using hc
      exact this ▸ h.1 b hb⟩
  · obtain ⟨c, hc⟩ := motAfter_cell s 0
    simp [finalState, hc]

theorem s2c_elements_single_witness :
    ValidString (ascii ['G', 'A']) ∧
      ∃ v st, s2c [⟨ascii ['G', 'A']⟩] session0 = .ok (v, st) ∧
        (∀ x ∈ v, x.bytes.length = 1 ∧ ∀ b ∈ x.bytes, b ≠ 0) ∧
        st.mot.length = 2 ∧ st.mot[1]? = some 0 :=
  ⟨by decide, s2c_elements_single _ _ _ (by decide)⟩

/-- C5: empty input.  On the empty string `s2c` does not fail and returns the
vector without elements, whatever else the argument holds. -/
theorem s2c_empty (rest : List CHARSXP) (R : Session) :
    s2cValue (⟨[]⟩ :: rest) R = some [] ∧ (s2c (⟨[]⟩ :: rest) R).isOk = true := by
  have h : ValidString [] := by decide
  refine ⟨s2cValue_valid [] rest R h, ?_⟩
  rw [s2c_valid [] rest R h]; rfl

/-- C6: no deduplication.  For every valid string `s` and every byte `b`, the
vector `s2c` returns holds the one-byte string of `b` as often as `s` holds
`b`; and `s2c("aab") = ["a", "a", "b"]`. -/
theorem s2c_count (s : List Byte) (rest : List CHARSXP) (R : Session)
    (h : ValidString s) :
    (∃ v, s2cValue (⟨s⟩ :: rest) R = some v ∧
      ∀ b : Byte, v.count ⟨[b]⟩ = s.count b) ∧
    s2cValue [⟨ascii ['a', 'a', 'b']⟩] R
      = some [⟨ascii ['a']⟩, ⟨ascii ['a']⟩, ⟨ascii ['b']⟩] := by
  refine ⟨⟨s.map single, s2cValue_valid s rest R h, ?_⟩, ?_⟩
  · intro b
    have hinj : Function.Injective single := by
      intro a c hac
      simpa [single] using hac
    exact List.count_map_of_injective s single hinj b
  · rw [s2cValue_valid _ [] R (by decide)]; rfl

theorem s2c_count_witness :
    ValidString (ascii ['a', 'a', 'b']) ∧
      ((∃ v, s2cValue [⟨ascii ['a', 'a', 'b']⟩] session0 = some v ∧
        ∀ b : Byte, v.count ⟨[b]⟩ = (ascii ['a', 'a', 'b']).count b) ∧
      s2cValue [⟨ascii ['a', 'a', 'b']⟩] session0
        = some [⟨ascii ['a']⟩, ⟨ascii ['a']⟩, ⟨ascii ['b']⟩]) :=
  ⟨by decide, s2c_count _ _ _ (by decide)⟩

/-! ### The argument is only read -/

theorem body_seq {st st1 : State} (h : body st = .ok st1) : st1.seq = st.seq := by
  unfold body at h
  split at h
  · cases h
  · split at h
    · cases h
    · simp only at h
      split at h
      · cases h
      · split at h
        · cases h
        · cases h; rfl

theorem incr_seq {st st1 : State} (h : incr st = .ok st1) : st1.seq = st.seq := by
  unfold incr at h
  split at h
  · cases h; rfl
  · cases h

theorem turn_seq {st st1 : State} (h : turn st = .ok st1) : st1.seq = st.seq := by
  unfold turn at h
  split at h
  · cases h
  · rename_i st2 h2
    rw [incr_seq h, body_seq h2]

theorem loop_seq : ∀ (fuel : Nat) {st st1 : State}, loop fuel st = .ok st1 → st1.seq = st.seq := by
  intro fuel
  induction fuel with
  | zero =>
    intro st st1 h
    unfold loop at h
    split at h
    · cases h
    · cases h; rfl
  | succ n ih =>
    intro st st1 h
    unfold loop at h
    split at h
    · split at h
      · cases h
      · rename_i st2 h2
        rw [ih h, turn_seq h2]
    · cases h; rfl

theorem enter_seq {seq : List CHARSXP} {R : Session} {st : State}
    (h : enter seq R = .ok st) : st.seq = seq := by
  unfold enter at h
  split at h
  · cases h
  · split at h
    · cases h
    · simp only at h
      split at h
      · cases h
      · cases h; rfl

theorem leave_seq {st st1 : State} {v : List CHARSXP} (h : leave st = .ok (v, st1)) :
    st1.seq = st.seq := by
  unfold leave at h
  split at h
  · cases h
  · cases h; rfl

theorem s2c_seq {seq : List CHARSXP} {R : Session} {v : List CHARSXP} {st : State}
    (h : s2c seq R = .ok (v, st)) : st.seq = seq := by
  unfold s2c at h
  split at h
  · cases h
  · rename_i st0 h0
    split at h
    · cases h
    · rename_i st1 h1
      rw [leave_seq h, loop_seq _ h1, enter_seq h0]

/-! ### Only element 0 of the argument is consulted -/

theorem reseat_seq_ne (r : List CHARSXP) (st : State) (hne : st.seq ≠ []) :
    (reseat r st).seq ≠ [] := by
  obtain ⟨x, rest, hx⟩ := List.exists_cons_of_ne_nil hne
  simp [reseat, hx]

theorem body_reseat (r : List CHARSXP) (st : State) (hne : st.seq ≠ []) :
    body (reseat r st) = (body st).map (reseat r) := by
  obtain ⟨x, rest, hx⟩ := List.exists_cons_of_ne_nil hne
  have h1 : STRING_ELT (st.seq.take 1 ++ r) 0 = .ok x := by simp [hx, STRING_ELT]
  have h2 : STRING_ELT st.seq 0 = .ok x := by simp [hx, STRING_ELT]
  simp only [body, reseat, h1, h2]
  cases readAt (CHAR x) st.i with
  | error e => rfl
  | ok b =>
    simp only
    cases mkChar (st.mot.set 0 b) with
    | error e => rfl
    | ok c =>
      simp only
      cases SET_STRING_ELT st.vec st.i c with
      | error e => rfl
      | ok vec => rfl

theorem incr_reseat (r : List CHARSXP) (st : State) :
    incr (reseat r st) = (incr st).map (reseat r) := by
  simp only [incr, reseat]
  split <;> rfl

theorem turn_reseat (r : List CHARSXP) (st : State) (hne : st.seq ≠ []) :
    turn (reseat r st) = (turn st).map (reseat r) := by
  simp only [turn, body_reseat r st hne]
  cases body st with
  | error e => rfl
  | ok st1 => exact incr_reseat r st1

theorem loop_reseat (r : List CHARSXP) :
    ∀ (fuel : Nat) (st : State), st.seq ≠ [] →
      loop fuel (reseat r st) = (loop fuel st).map (reseat r) := by
  intro fuel
  induction fuel with
  | zero =>
    intro st _
    simp only [loop]
    have : (reseat r st).i = st.i ∧ (reseat r st).lseq = st.lseq := ⟨rfl, rfl⟩
    rw [this.1, this.2]
    split <;> rfl
  | succ n ih =>
    intro st hne
    simp only [loop]
    have : (reseat r st).i = st.i ∧ (reseat r st).lseq = st.lseq := ⟨rfl, rfl⟩
    rw [this.1, this.2, turn_reseat r st hne]
    split
    · cases ht : turn st with
      | error e => rfl
      | ok st1 =>
        have hne1 : st1.seq ≠ [] := by rw [turn_seq ht]; exact hne
        exact ih st1 hne1
    · rfl

theorem enter_reseat (x : CHARSXP) (r1 r2 : List CHARSXP) (R : Session) :
    enter (x :: r2) R = (enter (x :: r1) R).map (reseat r2) := by
  have h1 : ∀ r, STRING_ELT (x :: r) 0 = .ok x := by intro r; simp [STRING_ELT]
  simp only [enter, h1]
  cases strlen (CHAR x) with
  | error e => rfl
  | ok n =>
    simp only
    cases NEW_CHARACTER (toInt n) with
    | error e => rfl
    | ok vec => rfl

theorem s2cValue_cons (x : CHARSXP) (r1 r2 : List CHARSXP) (R : Session) :
    s2cValue (x :: r1) R = s2cValue (x :: r2) R := by
  simp only [s2cValue, s2c, enter_reseat x r1 r2 R]
  cases he : enter (x :: r1) R with
  | error e => rfl
  | ok st0 =>
    have hne : st0.seq ≠ [] := by rw [enter_seq he]; simp
    have hl : (reseat r2 st0).lseq = st0.lseq := rfl
    simp only [Except.map, hl, loop_reseat r2 _ st0 hne]
    cases loop st0.lseq.toNat st0 with
    | error e => rfl
    | ok st1 =>
      simp only [Except.map, leave, reseat]
      cases UNPROTECT 1 st1.ppstack with
      | error e => rfl
      | ok pp => rfl

/-- C7: only the first element is consulted.  For every string `x` and all
lists `r1`, `r2` of further strings, `s2c` gives the same outcome on
`x :: r1`, on `x :: r2` and on the one-element vector `[x]`: the same value
when it returns, and a fault on one exactly when on the others. -/
theorem s2c_first_only (x : CHARSXP) (r1 r2 : List CHARSXP) (R : Session) :
    s2cValue (x :: r1) R = s2cValue (x :: r2) R ∧
      s2cValue (x :: r1) R = s2cValue [x] R :=
  ⟨s2cValue_cons x r1 r2 R, s2cValue_cons x r1 [] R⟩

/-- C10: the input is not mutated.  Whenever a run of `s2c` returns, the
argument vector in the final machine state, and with it the bytes of its
first string, are what was passed in. -/
theorem s2c_input_unchanged (seq : List CHARSXP) (R : Session) (v : List CHARSXP)
    (st : State) (h : s2c seq R = .ok (v, st)) :
    st.seq = seq ∧ STRING_ELT st.seq 0 = STRING_ELT seq 0 := by
  have hs := s2c_seq h
  exact ⟨hs, by rw [hs]⟩

theorem s2c_input_unchanged_witness :
    s2c [⟨ascii ['a', 'b']⟩, ⟨ascii ['z']⟩] session0
        = .ok ([⟨ascii ['a']⟩, ⟨ascii ['b']⟩],
            finalState [⟨ascii ['a', 'b']⟩, ⟨ascii ['z']⟩] session0 (ascii ['a', 'b'])) ∧
      (finalState [⟨ascii ['a', 'b']⟩, ⟨ascii ['z']⟩] session0 (ascii ['a', 'b'])).seq
        = [⟨ascii ['a', 'b']⟩, ⟨ascii ['z']⟩] ∧
      STRING_ELT
          (finalState [⟨ascii ['a', 'b']⟩, ⟨ascii ['z']⟩] session0 (ascii ['a', 'b'])).seq 0
        = STRING_ELT [⟨ascii ['a', 'b']⟩, ⟨ascii ['z']⟩] 0 := by
  have h : s2c [⟨ascii ['a', 'b']⟩, ⟨ascii ['z']⟩] session0
      = .ok ([⟨ascii ['a']⟩, ⟨ascii ['b']⟩],
          finalState [⟨ascii ['a', 'b']⟩, ⟨ascii ['z']⟩] session0 (ascii ['a', 'b'])) := by
    rfl
  exact ⟨h, s2c_input_unchanged _ _ _ _ h⟩

/-! ### Bounds of the accesses -/

theorem loopEvents_inRange (pp : List Nat) (n : Nat) :
    ∀ (cnt k : Nat), k + cnt ≤ n → ∀ e ∈ loopEvents pp n k cnt, e.inRange n n := by
  intro cnt
  induction cnt with
  | zero => intro k _ e he; simp [loopEvents] at he
  | succ c ih =>
    intro k hk e he
    simp only [loopEvents, turnEvents, List.mem_append, List.mem_cons, List.mem_singleton,
      List.not_mem_nil, or_false] at he
    rcases he with (rfl | rfl | rfl | rfl) | he
    · exact ⟨by omega, by omega⟩
    · rfl
    · trivial
    · exact ⟨by omega, by omega, rfl⟩
    · exact ih (k + 1) (by omega) e he

/-- C9: no error on well-formed input.  For every argument whose first element
is a valid string `s`, `s2c` returns a vector and not a fault, and in its run
every read `string[i]` has `0 ≤ i < len(s)`, every `SET_STRING_ELT(chaine, i, _)`
has `0 ≤ i < length(chaine)`, and every write to `mot` goes to cell 0 of its
2 cells. -/
theorem s2c_no_fault (s : List Byte) (rest : List CHARSXP) (R : Session)
    (h : ValidString s) :
    ∃ v st, s2c (⟨s⟩ :: rest) R = .ok (v, st) ∧
      (∀ e ∈ st.trace, e.inRange s.length v.length) ∧ st.mot.length = 2 := by
  refine ⟨_, _, s2c_valid s rest R h, ?_, ?_⟩
  · intro e he
    simp only [finalState, List.length_map] at he ⊢
    exact loopEvents_inRange _ _ _ _ (by omega) e he
  · obtain ⟨c, hc⟩ := motAfter_cell s 0
    simp [finalState, hc]

theorem s2c_no_fault_witness :
    ValidString (ascii ['M', 'K', 'V']) ∧
      ∃ v st, s2c [⟨ascii ['M', 'K', 'V']⟩] session0 = .ok (v, st) ∧
        (∀ e ∈ st.trace, e.inRange (ascii ['M', 'K', 'V']).length v.length) ∧
        st.mot.length = 2 :=
  ⟨by decide, s2c_no_fault _ _ _ (by decide)⟩

/-! ### UTF-8 texts -/

theorem utf8_eq (t : String) : utf8 t = t.data.flatMap String.utf8EncodeChar := rfl

theorem lor_ne_zero (a k : UInt8) (hk : k.toNat.testBit 7 = true) : a ||| k ≠ 0 := by
  intro h
  have h1 : (a ||| k).toBitVec.toNat = (0 : UInt8).toBitVec.toNat := by rw [h]
  have h2 : (a ||| k).toBitVec = a.toBitVec ||| k.toBitVec := rfl
  rw [h2, BitVec.toNat_or] at h1
  have h3 : (a.toBitVec.toNat ||| k.toBitVec.toNat).testBit 7 = true := by
    rw [Nat.testBit_or]
    have : k.toBitVec.toNat.testBit 7 = true := hk
    simp [this]
  rw [h1] at h3
  exact absurd h3 (by decide)

theorem low_byte_ne_zero (c : Char) (h : c.toNat ≠ 0) (hle : c.val ≤ 0x7f) :
    c.val.toUInt8 ≠ 0 := by
  intro h0
  have h1 : c.val.toUInt8.toNat = 0 := by rw [h0]; rfl
  have h2 : c.val.toUInt8.toNat = c.val.toNat % 256 := rfl
  have h3 : c.val.toNat ≤ 127 := hle
  have h4 : c.toNat = c.val.toNat := rfl
  omega

theorem utf8EncodeChar_ne_zero (c : Char) (h : c.toNat ≠ 0) :
    ∀ b ∈ String.utf8EncodeChar c, b ≠ 0 := by
  intro b hb
  unfold String.utf8EncodeChar at hb
  simp only at hb
  split at hb
  · rename_i hle
    simp only [List.mem_singleton] at hb
    subst hb
    exact low_byte_ne_zero c h hle
  · split at hb
    · simp only [List.mem_cons, List.mem_singleton, List.not_mem_nil, or_false] at hb
      rcases hb with rfl | rfl <;> exact lor_ne_zero _ _ (by decide)
    · split at hb
      · simp only [List.mem_cons, List.mem_singleton, List.not_mem_nil, or_false] at hb
        rcases hb with rfl | rfl | rfl <;> exact lor_ne_zero _ _ (by decide)
      · simp only [List.mem_cons, List.mem_singleton, List.not_mem_nil, or_false] at hb
        rcases hb with rfl | rfl | rfl | rfl <;> exact lor_ne_zero _ _ (by decide)

theorem utf8_ne_zero (t : String) (h0 : ∀ c ∈ t.data, c.toNat ≠ 0) :
    ∀ b ∈ utf8 t, b ≠ 0 := by
  intro b hb
  rw [utf8_eq, List.mem_flatMap] at hb
  obtain ⟨c, hc, hbc⟩ := hb
  exact utf8EncodeChar_ne_zero c (h0 c hc) b hbc

theorem utf8Size_ge_two (c : Char) (h : 127 < c.toNat) : 2 ≤ c.utf8Size := by
  have h4 : c.toNat = c.val.toNat := rfl
  unfold Char.utf8Size
  simp only
  split
  · rename_i hle
    have : c.val.toNat ≤ 127 := hle
    omega
  · split
    · exact Nat.le_refl 2
    · split <;> omega

theorem length_flatMap_utf8 (cs : List Char) :
    cs.length ≤ (cs.flatMap String.utf8EncodeChar).length ∧
      ((∃ c ∈ cs, 127 < c.toNat) → cs.length < (cs.flatMap String.utf8EncodeChar).length) := by
  induction cs with
  | nil => simp
  | cons c cs ih =>
    have hpos : 1 ≤ c.utf8Size := Char.utf8Size_pos c
    simp only [List.flatMap_cons, List.length_append, String.length_utf8EncodeChar,
      List.length_cons]
    refine ⟨by omega, ?_⟩
    rintro ⟨d, hd, hd127⟩
    rcases List.mem_cons.mp hd with rfl | hd
    · have := utf8Size_ge_two d hd127
      omega
    · have := ih.2 ⟨d, hd, hd127⟩
      omega

/-- C8: byte-wise, not character-wise.  For every Unicode text `t` without
U+0000 whose UTF-8 encoding is a valid string, `s2c` applied to the encoding
returns one single-byte element per byte of the encoding: the `k` bytes that
encode a code point become `k` consecutive elements, and the number of
elements exceeds the number of code points as soon as `t` holds a code point
above U+007F. -/
theorem s2c_bytewise (t : String) (rest : List CHARSXP) (R : Session)
    (h0 : ∀ c ∈ t.data, c.toNat ≠ 0) (hlen : ((utf8 t).length : Int) ≤ INT_MAX) :
    ∃ v, s2cValue (⟨utf8 t⟩ :: rest) R = some v ∧
      v.length = (utf8 t).length ∧
      (∀ x ∈ v, x.bytes.length = 1) ∧
      v = t.data.flatMap (fun c => (String.utf8EncodeChar c).map (fun b => ⟨[b]⟩)) ∧
      (∀ c : Char, (String.utf8EncodeChar c).length = c.utf8Size) ∧
      ((∃ c ∈ t.data, 127 < c.toNat) → t.length < v.length) := by
  have hv : ValidString (utf8 t) := ⟨utf8_ne_zero t h0, hlen⟩
  refine ⟨(utf8 t).map single, s2cValue_valid _ rest R hv, by simp, ?_, ?_, ?_, ?_⟩
  · intro x hx
    obtain ⟨b, _, rfl⟩ := List.mem_map.mp hx
    rfl
  · rw [utf8_eq, List.map_flatMap]
    rfl
  · exact String.length_utf8EncodeChar
  · intro hex
    rw [List.length_map, utf8_eq]
    exact (length_flatMap_utf8 t.data).2 hex

theorem s2c_bytewise_witness :
    (∀ c ∈ (String.mk ['c', 'a', 'f', Char.ofNat 233]).data, c.toNat ≠ 0) ∧
      (((utf8 (String.mk ['c', 'a', 'f', Char.ofNat 233])).length : Int) ≤ INT_MAX) ∧
      ∃ v, s2cValue [⟨utf8 (String.mk ['c', 'a', 'f', Char.ofNat 233])⟩] session0 = some v ∧
        v.length = 5 ∧ (String.mk ['c', 'a', 'f', Char.ofNat 233]).length = 4 := by
  have h0 : ∀ c ∈ (String.mk ['c', 'a', 'f', Char.ofNat 233]).data, c.toNat ≠ 0 := by decide
  have hlen : ((utf8 (String.mk ['c', 'a', 'f', Char.ofNat 233])).length : Int) ≤ INT_MAX := by
    decide
  obtain ⟨v, hv, hl, _⟩ := s2c_bytewise (String.mk ['c', 'a', 'f', Char.ofNat 233]) [] session0
    h0 hlen
  exact ⟨h0, hlen, v, hv, hl.trans (by decide), by decide⟩

/-! ### The result does not depend on the session -/

theorem body_core {st st' : State} (h : core st = core st') :
    (body st).map core = (body st').map core := by
  simp only [core, Prod.mk.injEq] at h
  obtain ⟨h1, h2, h3, h4, h5⟩ := h
  simp only [body, h1, h3, h4, h5]
  cases STRING_ELT st'.seq 0 with
  | error e => rfl
  | ok x =>
    simp only
    cases readAt (CHAR x) st'.i with
    | error e => rfl
    | ok b =>
      simp only
      cases mkChar (st'.mot.set 0 b) with
      | error e => rfl
      | ok c =>
        simp only
        cases SET_STRING_ELT st'.vec st'.i c with
        | error e => rfl
        | ok vec => simp [Except.map, core, h1, h2, h3]

theorem incr_core {st st' : State} (h : core st = core st') :
    (incr st).map core = (incr st').map core := by
  simp only [core, Prod.mk.injEq] at h
  obtain ⟨h1, h2, h3, h4, h5⟩ := h
  simp only [incr, h3]
  split <;> simp [Except.map, core, h1, h2, h3, h4, h5]

theorem map_core_ok {a : Except Fault State} {b : Except Fault State} {st : State}
    (h : a.map core = b.map core) (ha : a = .ok st) :
    ∃ st', b = .ok st' ∧ core st = core st' := by
  subst ha
  cases b with
  | error e => simp [Except.map] at h
  | ok st' => exact ⟨st', rfl, by simpa [Except.map] using h⟩

theorem map_core_error {a : Except Fault State} {b : Except Fault State} {e : Fault}
    (h : a.map core = b.map core) (ha : a = .error e) : b = .error e := by
  subst ha
  cases b with
  | error e' => simpa [Except.map] using h.symm
  | ok st' => simp [Except.map] at h

theorem turn_core {st st' : State} (h : core st = core st') :
    (turn st).map core = (turn st').map core := by
  have hb := body_core h
  simp only [turn]
  cases hbs : body st with
  | error e =>
    rw [map_core_error hb hbs]
  | ok st1 =>
    obtain ⟨st1', hb', hc⟩ := map_core_ok hb hbs
    rw [hb']
    exact incr_core hc

theorem loop_core : ∀ (fuel : Nat) {st st' : State}, core st = core st' →
    (loop fuel st).map core = (loop fuel st').map core := by
  intro fuel
  induction fuel with
  | zero =>
    intro st st' h
    have hf := h
    simp only [core, Prod.mk.injEq] at hf
    obtain ⟨h1, h2, h3, h4, h5⟩ := hf
    simp only [loop, h2, h3]
    split
    · rfl
    · simpa [Except.map] using h
  | succ n ih =>
    intro st st' h
    have hf := h
    simp only [core, Prod.mk.injEq] at hf
    obtain ⟨h1, h2, h3, h4, h5⟩ := hf
    have ht := turn_core h
    simp only [loop, h2, h3]
    split
    · cases hts : turn st with
      | error e => rw [map_core_error ht hts]
      | ok st1 =>
        obtain ⟨st1', ht', hc⟩ := map_core_ok ht hts
        rw [ht']
        exact ih hc
    · simpa [Except.map] using h

/-! ### What a run does to the protection stack and the trace -/

theorem body_frame {st st1 : State} (h : body st = .ok st1) :
    st1.ppstack = st.ppstack ∧ st1.chaine = st.chaine ∧ st1.heapTop = st.heapTop ∧
      st1.lseq = st.lseq ∧ st1.i = st.i ∧
      st1.trace = st.trace ++
        [Event.readString st.i, Event.writeMot 0, Event.mkChar st.ppstack,
          Event.setStringElt st.i st.vec.length st.ppstack] := by
  unfold body at h
  split at h
  · cases h
  · split at h
    · cases h
    · simp only at h
      split at h
      · cases h
      · split at h
        · cases h
        · cases h
          exact ⟨rfl, rfl, rfl, rfl, rfl, rfl⟩

theorem incr_frame {st st1 : State} (h : incr st = .ok st1) :
    st1.ppstack = st.ppstack ∧ st1.chaine = st.chaine ∧ st1.heapTop = st.heapTop ∧
      st1.lseq = st.lseq ∧ st1.i = st.i + 1 ∧ st1.trace = st.trace ∧
      st1.vec = st.vec ∧ st1.mot = st.mot := by
  unfold incr at h
  split at h
  · cases h
    exact ⟨rfl, rfl, rfl, rfl, rfl, rfl, rfl, rfl⟩
  · cases h

theorem turn_frame {st st1 : State} (h : turn st = .ok st1) :
    st1.ppstack = st.ppstack ∧ st1.chaine = st.chaine ∧ st1.heapTop = st.heapTop ∧
      st1.lseq = st.lseq ∧ st1.i = st.i + 1 ∧
      st1.trace = st.trace ++
        [Event.readString st.i, Event.writeMot 0, Event.mkChar st.ppstack,
          Event.setStringElt st.i st.vec.length st.ppstack] := by
  unfold turn at h
  split at h
  · cases h
  · rename_i st2 h2
    obtain ⟨b1, b2, b3, b4, b5, b6⟩ := body_frame h2
    obtain ⟨c1, c2, c3, c4, c5, c6, _, _⟩ := incr_frame h
    exact ⟨c1.trans b1, c2.trans b2, c3.trans b3, c4.trans b4, by rw [c5, b5],
      c6.trans b6⟩

theorem loop_frame : ∀ (fuel : Nat) {st st1 : State}, loop fuel st = .ok st1 →
    st1.ppstack = st.ppstack ∧ st1.chaine = st.chaine ∧ st1.heapTop = st.heapTop ∧
      st1.lseq = st.lseq ∧
      ((∀ e ∈ st.trace, e.guardedBy st.chaine) → st.chaine ∈ st.ppstack →
        ∀ e ∈ st1.trace, e.guardedBy st.chaine) := by
  intro fuel
  induction fuel with
  | zero =>
    intro st st1 h
    unfold loop at h
    split at h
    · cases h
    · cases h
      exact ⟨rfl, rfl, rfl, rfl, fun hg _ => hg⟩
  | succ n ih =>
    intro st st1 h
    unfold loop at h
    split at h
    · split at h
      · cases h
      · rename_i st2 h2
        obtain ⟨t1, t2, t3, t4, _, t6⟩ := turn_frame h2
        obtain ⟨l1, l2, l3, l4, l5⟩ := ih h
        refine ⟨l1.trans t1, l2.trans t2, l3.trans t3, l4.trans t4, ?_⟩
        intro hg hin
        rw [t2, t1] at l5
        apply l5 _ hin
        intro e he
        rw [t6, List.mem_append] at he
        rcases he with he | he
        · exact hg e he
        · simp only [List.mem_cons, List.mem_singleton, List.not_mem_nil, or_false] at he
          rcases he with rfl | rfl | rfl | rfl
          · trivial
          · trivial
          · exact hin
          · exact hin
    · cases h
      exact ⟨rfl, rfl, rfl, rfl, fun hg _ => hg⟩

theorem enter_frame {seq : List CHARSXP} {R : Session} {st : State}
    (h : enter seq R = .ok st) :
    st.ppstack = R.heapTop :: R.ppstack ∧ st.chaine = R.heapTop ∧
      st.heapTop = R.heapTop + 1 ∧ st.trace = [] ∧ st.mot = [0, 0] ∧ st.i = 0 := by
  unfold enter at h
  split at h
  · cases h
  · split at h
    · cases h
    · simp only at h
      split at h
      · cases h
      · cases h
        exact ⟨rfl, rfl, rfl, rfl, rfl, rfl⟩

theorem leave_cons (st : State) (a : Nat) (pp : List Nat) (h : st.ppstack = a :: pp) :
    leave st = .ok (st.vec, { st with ppstack := pp }) := by
  simp [leave, UNPROTECT, h]

theorem s2c_frame {seq : List CHARSXP} {R : Session} {v : List CHARSXP} {st : State}
    (h : s2c seq R = .ok (v, st)) :
    st.ppstack = R.ppstack ∧ st.chaine = R.heapTop ∧ st.heapTop = R.heapTop + 1 ∧
      ∀ e ∈ st.trace, e.guardedBy st.chaine := by
  unfold s2c at h
  split at h
  · cases h
  · rename_i st0 h0
    split at h
    · cases h
    · rename_i st1 h1
      obtain ⟨e1, e2, e3, e4, _, _⟩ := enter_frame h0
      obtain ⟨l1, l2, l3, _, l5⟩ := loop_frame _ h1
      rw [leave_cons st1 R.heapTop R.ppstack (l1.trans e1)] at h
      cases h
      refine ⟨rfl, l2.trans e2, l3.trans e3, ?_⟩
      have hin : st0.chaine ∈ st0.ppstack := by rw [e1, e2]; simp
      have hg : ∀ e ∈ st0.trace, e.guardedBy st0.chaine := by
        intro e he; rw [e4] at he; simp at he
      intro e he
      have := l5 hg hin e he
      rw [← l2] at this
      exact this

/-! ### The result does not depend on the session, continued -/

theorem enter_core (seq : List CHARSXP) (R1 R2 : Session) :
    (enter seq R1).map core = (enter seq R2).map core := by
  simp only [enter]
  cases STRING_ELT seq 0 with
  | error e => rfl
  | ok x =>
    simp only
    cases strlen (CHAR x) with
    | error e => rfl
    | ok n =>
      simp only
      cases NEW_CHARACTER (toInt n) with
      | error e => rfl
      | ok vec => rfl

theorem s2cValue_session (seq : List CHARSXP) (R1 R2 : Session) :
    s2cValue seq R1 = s2cValue seq R2 := by
  have he := enter_core seq R1 R2
  simp only [s2cValue, s2c]
  cases h1 : enter seq R1 with
  | error e => rw [map_core_error he h1]
  | ok st0 =>
    obtain ⟨st0', h2, hc⟩ := map_core_ok he h1
    rw [h2]
    have hl : st0.lseq = st0'.lseq := by
      simp only [core, Prod.mk.injEq] at hc
      exact hc.2.1
    have hlp := loop_core st0.lseq.toNat hc
    simp only [← hl]
    cases h3 : loop st0.lseq.toNat st0 with
    | error e => rw [map_core_error hlp h3]
    | ok st1 =>
      obtain ⟨st1', h4, hc1⟩ := map_core_ok hlp h3
      rw [h4]
      have p1 := ((loop_frame _ h3).1).trans (enter_frame h1).1
      have p2 := ((loop_frame _ h4).1).trans (enter_frame h2).1
      simp only [leave_cons st1 _ _ p1, leave_cons st1' _ _ p2]
      simp only [core, Prod.mk.injEq] at hc1
      simp only [hc1.2.2.2.2]

/-- C11: repeatability.  The value `s2c` returns, or its fault, is the same in
every session; in particular a second call with the same argument, made in
the session the first call left behind, returns the value of the first.
Every call starts with the scratch buffer `mot` set to two zero bytes. -/
theorem s2c_repeatable (seq : List CHARSXP) (R R2 : Session) :
    s2cValue seq R = s2cValue seq R2 ∧
      (∀ v st, s2c seq R = .ok (v, st) →
        ∃ st2, s2c seq (sessionAfter st) = .ok (v, st2)) ∧
      (∀ st0, enter seq R2 = .ok st0 → st0.mot = [0, 0]) := by
  refine ⟨s2cValue_session seq R R2, ?_, fun st0 h0 => (enter_frame h0).2.2.2.2.1⟩
  intro v st h
  have hv : s2cValue seq R = some v := by simp only [s2cValue, h]
  rw [s2cValue_session seq R (sessionAfter st)] at hv
  simp only [s2cValue] at hv
  split at hv
  · rename_i v2 st2 h2
    cases hv
    exact ⟨st2, h2⟩
  · cases hv

theorem s2c_repeatable_witness :
    ∃ st2, s2c [⟨ascii ['a', 'b']⟩]
        (sessionAfter (finalState [⟨ascii ['a', 'b']⟩] session0 (ascii ['a', 'b'])))
      = .ok ([⟨ascii ['a']⟩, ⟨ascii ['b']⟩], st2) := by
  have h : s2c [⟨ascii ['a', 'b']⟩] session0
      = .ok ([⟨ascii ['a']⟩, ⟨ascii ['b']⟩],
          finalState [⟨ascii ['a', 'b']⟩] session0 (ascii ['a', 'b'])) := by
    rfl
  exact (s2c_repeatable [⟨ascii ['a', 'b']⟩] session0 session0).2.1 _ _ h

/-! ### The loop, turn by turn -/

theorem loopEvents_snoc (pp : List Nat) (n : Nat) :
    ∀ (cnt k : Nat),
      loopEvents pp n k (cnt + 1) = loopEvents pp n k cnt ++ turnEvents pp n (k + cnt) := by
  intro cnt
  induction cnt with
  | zero => intro k; simp [loopEvents]
  | succ c ih =>
    intro k
    have e : k + (c + 1) = k + 1 + c := by omega
    rw [loopEvents, ih (k + 1), loopEvents, e, List.append_assoc]

theorem turns_spec (x : CHARSXP) (rest : List CHARSXP) (q : List Byte) :
    ∀ (k : Nat) (todo done : List Byte) (st : State) (m : Byte),
      CHAR x = done ++ (todo ++ 0 :: q) →
      (∀ b ∈ todo, b ≠ 0) →
      ((done.length + todo.length : Nat) : Int) ≤ INT_MAX →
      st.seq = x :: rest →
      st.i = (done.length : Nat) →
      st.mot = [m, 0] →
      st.vec = done.map single ++ List.replicate todo.length R_BlankString →
      k ≤ todo.length →
      turns k st = .ok { st with
        i := ((done.length + k : Nat) : Int)
        mot := motAfter st.mot (todo.take k)
        vec := (done ++ todo.take k).map single
          ++ List.replicate (todo.length - k) R_BlankString
        trace := st.trace ++
          loopEvents st.ppstack (done.length + todo.length) done.length k } := by
  intro k
  induction k with
  | zero =>
    intro todo done st m _ _ _ _ hi _ hvec _
    simp only [turns, List.take_zero, motAfter, List.foldl_nil, loopEvents, List.append_nil,
      Nat.sub_zero, Nat.add_zero]
    cases st
    simp_all
  | succ k ih =>
    intro todo done st m hbuf hnz hlen hseq hi hmot hvec hk
    cases todo with
    | nil => simp at hk
    | cons b t =>
      have hb : b ≠ 0 := hnz b (by simp)
      have hlen1 : (done.length : Int) + 1 ≤ INT_MAX := by
        simp only [List.length_cons] at hlen; omega
      have ht := turn_spec x rest st done t q b m hbuf hb hlen1 hseq hi hmot hvec
      have hrec := ih t (done ++ [b])
        { st with
          i := st.i + 1
          mot := [b, 0]
          vec := (done ++ [b]).map single ++ List.replicate t.length R_BlankString
          trace := st.trace ++
            turnEvents st.ppstack (done.length + (t.length + 1)) done.length } b
        (by simpa using hbuf)
        (fun c hc => hnz c (by simp [hc]))
        (by simp only [List.length_cons, List.length_append, List.length_nil] at hlen ⊢; omega)
        hseq
        (by simp only [hi, List.length_append, List.length_cons, List.length_nil]; omega)
        rfl rfl
        (by simp only [List.length_cons] at hk; omega)
      simp only [turns, ht, hrec]
      have e1 : (done ++ [b]).length + t.length = done.length + (t.length + 1) := by
        simp only [List.length_append, List.length_cons, List.length_nil]; omega
      have e2 : (done ++ [b]).length = done.length + 1 := by simp
      have e3 : done.length + 1 + k = done.length + (k + 1) := by omega
      have e4 : t.length + 1 - (k + 1) = t.length - k := by omega
      have e5 : done.length + 1 + t.length = done.length + (t.length + 1) := by omega
      simp only [e1, e2, e3, e4, e5, motAfter, hmot, List.foldl_cons, List.set_cons_zero,
        loopEvents, List.append_assoc, List.singleton_append, List.take_succ_cons,
        List.length_cons]

theorem loop_of_turns : ∀ (n : Nat) (st stn : State),
    (∀ k, k < n → ∃ stk, turns k st = .ok stk ∧ stk.i < stk.lseq) →
    turns n st = .ok stn → ¬ (stn.i < stn.lseq) →
    loop n st = .ok stn := by
  intro n
  induction n with
  | zero =>
    intro st stn _ hn hg
    simp only [turns] at hn
    cases hn
    simp [loop, hg]
  | succ n ih =>
    intro st stn hlt hn hg
    obtain ⟨st0, h0, hg0⟩ := hlt 0 (by omega)
    simp only [turns] at h0
    cases h0
    simp only [turns] at hn
    simp only [loop, hg0, if_true]
    cases ht : turn st with
    | error e => rw [ht] at hn; cases hn
    | ok st1 =>
      rw [ht] at hn
      simp only at hn ⊢
      apply ih st1 stn _ hn hg
      intro k hk
      obtain ⟨stk, hk1, hk2⟩ := hlt (k + 1) (by omega)
      simp only [turns, ht] at hk1
      exact ⟨stk, hk1, hk2⟩

theorem loop_short : ∀ (fuel : Nat) (st : State),
    (∀ k, k ≤ fuel → ∃ stk, turns k st = .ok stk ∧ stk.i < stk.lseq) →
    loop fuel st = .error .fuel := by
  intro fuel
  induction fuel with
  | zero =>
    intro st hlt
    obtain ⟨st0, h0, hg0⟩ := hlt 0 (by omega)
    simp only [turns] at h0
    cases h0
    simp [loop, hg0]
  | succ n ih =>
    intro st hlt
    obtain ⟨st0, h0, hg0⟩ := hlt 0 (by omega)
    simp only [turns] at h0
    cases h0
    simp only [loop, hg0, if_true]
    cases ht : turn st with
    | error e =>
      obtain ⟨stk, hk1, _⟩ := hlt 1 (by omega)
      simp only [turns, ht] at hk1
      cases hk1
    | ok st1 =>
      simp only
      apply ih st1
      intro k hk
      obtain ⟨stk, hk1, hk2⟩ := hlt (k + 1) (by omega)
      simp only [turns, ht] at hk1
      exact ⟨stk, hk1, hk2⟩

theorem loop_more : ∀ (fuel : Nat) (st st1 : State),
    loop fuel st = .ok st1 → loop (fuel + 1) st = .ok st1 := by
  intro fuel
  induction fuel with
  | zero =>
    intro st st1 h
    unfold loop at h
    split at h
    · cases h
    · rename_i hg
      cases h
      simp [loop, hg]
  | succ n ih =>
    intro st st1 h
    unfold loop at h
    split at h
    · rename_i hg
      split at h
      · cases h
      · rename_i st2 h2
        have := ih st2 st1 h
        rw [loop]
        simp only [hg, if_true, h2, this]
    · rename_i hg
      cases h
      rw [loop]
      simp only [hg, if_false]

theorem loop_ge (fuel : Nat) (st st1 : State) (h : loop fuel st = .ok st1) :
    ∀ d : Nat, loop (fuel + d) st = .ok st1 := by
  intro d
  induction d with
  | zero => exact h
  | succ d ih => exact loop_more _ _ _ ih

theorem enter_valid (s : List Byte) (rest : List CHARSXP) (R : Session)
    (h : ValidString s) :
    enter (⟨s⟩ :: rest) R = .ok (entryState (⟨s⟩ :: rest) R s.length) := by
  have h1 : STRING_ELT (⟨s⟩ :: rest) 0 = .ok ⟨s⟩ := by simp [STRING_ELT]
  have h2 : strlen (CHAR ⟨s⟩) = .ok s.length := strlen_append_zero s [] h.1
  have h3 : toInt s.length = (s.length : Nat) := toInt_of_le _ h.2
  have h4 : NEW_CHARACTER (s.length : Nat) = .ok (List.replicate s.length R_BlankString) := by
    have : ¬ ((s.length : Int) < 0) := by omega
    simp only [NEW_CHARACTER, this, if_false, Int.toNat_ofNat]
  simp only [enter, h1, h2, h3, h4, PROTECT, entryState]

theorem turns_valid (s : List Byte) (rest : List CHARSXP) (R : Session)
    (h : ValidString s) (k : Nat) (hk : k ≤ s.length) :
    turns k (entryState (⟨s⟩ :: rest) R s.length) = .ok
      { entryState (⟨s⟩ :: rest) R s.length with
        i := (k : Nat)
        mot := motAfter [0, 0] (s.take k)
        vec := (s.take k).map single ++ List.replicate (s.length - k) R_BlankString
        trace := loopEvents (R.heapTop :: R.ppstack) s.length 0 k } := by
  have := turns_spec ⟨s⟩ rest [] k s [] (entryState (⟨s⟩ :: rest) R s.length) 0
    (by simp [CHAR]) h.1 (by simpa using h.2) rfl (by simp [entryState]) rfl
    (by simp [entryState]) hk
  rw [this]
  simp [entryState]

theorem storesTo_loopEvents (pp : List Nat) (n j : Nat) :
    ∀ (cnt k : Nat),
      storesTo j (loopEvents pp n k cnt) = if k ≤ j ∧ j < k + cnt then 1 else 0 := by
  intro cnt
  induction cnt with
  | zero =>
    intro k
    have : ¬ (k ≤ j ∧ j < k + 0) := by omega
    rw [if_neg this]
    rfl
  | succ c ih =>
    intro k
    have hrec := ih (k + 1)
    simp only [storesTo] at hrec
    simp only [storesTo, loopEvents, turnEvents, List.countP_append, hrec, List.countP_cons,
      List.countP_nil]
    by_cases hkj : k = j
    · subst hkj
      have h1 : ¬ (k + 1 ≤ k ∧ k < k + 1 + c) := by omega
      have h2 : k ≤ k ∧ k < k + (c + 1) := by omega
      simp [h1, h2]
    · have hne : ¬ ((k : Int) = (j : Int)) := by omega
      by_cases h1 : k + 1 ≤ j ∧ j < k + 1 + c
      · have h2 : k ≤ j ∧ j < k + (c + 1) := by omega
        simp [h1, h2, hne]
      · have h2 : ¬ (k ≤ j ∧ j < k + (c + 1)) := by omega
        simp [h1, h2, hne]

/-- C12: bounded loop.  For every valid string `s` the loop is entered with
`i = 0` and `lseq = len(s)`; before each of the first `len(s)` turns the test
`i < lseq` holds, turn `k` starts with `i = k` and leaves `lseq` as it is, and
after `len(s)` turns the test fails.  So the loop ends after exactly `len(s)`
turns: any allowance of at least `len(s)` turns gives the same final state,
a smaller one is used up, and the run of `s2c` returns. -/
theorem s2c_loop_bounded (s : List Byte) (rest : List CHARSXP) (R : Session)
    (h : ValidString s) :
    ∃ st0 stn, enter (⟨s⟩ :: rest) R = .ok st0 ∧ st0.i = 0 ∧ st0.lseq = (s.length : Nat) ∧
      (∀ k, k < s.length → ∃ stk, turns k st0 = .ok stk ∧ stk.i = (k : Nat) ∧
        stk.lseq = (s.length : Nat) ∧ stk.i < stk.lseq) ∧
      turns s.length st0 = .ok stn ∧ stn.i = (s.length : Nat) ∧
      stn.lseq = (s.length : Nat) ∧ ¬ (stn.i < stn.lseq) ∧
      (∀ fuel, s.length ≤ fuel → loop fuel st0 = .ok stn) ∧
      (∀ fuel, fuel < s.length → loop fuel st0 = .error .fuel) ∧
      (s2c (⟨s⟩ :: rest) R).isOk = true := by
  have hsteps : ∀ k, k < s.length →
      ∃ stk, turns k (entryState (⟨s⟩ :: rest) R s.length) = .ok stk ∧ stk.i = (k : Nat) ∧
        stk.lseq = (s.length : Nat) ∧ stk.i < stk.lseq := by
    intro k hk
    refine ⟨_, turns_valid s rest R h k (by omega), rfl, rfl, ?_⟩
    simp only [entryState]
    omega
  have hend := turns_valid s rest R h s.length (Nat.le_refl _)
  have hloop := loop_of_turns s.length _ _
    (fun k hk => by
      obtain ⟨stk, a, _, _, d⟩ := hsteps k hk
      exact ⟨stk, a, d⟩)
    hend (by simp [entryState])
  refine ⟨_, _, enter_valid s rest R h, rfl, rfl, hsteps, hend, rfl, rfl,
    by simp [entryState], ?_, ?_, ?_⟩
  · intro fuel hf
    obtain ⟨d, rfl⟩ := Nat.exists_eq_add_of_le hf
    exact loop_ge _ _ _ hloop d
  · intro fuel hf
    apply loop_short
    intro k hk
    obtain ⟨stk, a, _, _, d⟩ := hsteps k (by omega)
    exact ⟨stk, a, d⟩
  · rw [s2c_valid s rest R h]; rfl

theorem s2c_loop_bounded_witness :
    ValidString (ascii ['L', 'K', 'R']) ∧
      ∃ st0 stn, enter [⟨ascii ['L', 'K', 'R']⟩] session0 = .ok st0 ∧ st0.i = 0 ∧
        st0.lseq = ((ascii ['L', 'K', 'R']).length : Nat) ∧
        (∀ k, k < (ascii ['L', 'K', 'R']).length → ∃ stk, turns k st0 = .ok stk ∧
          stk.i = (k : Nat) ∧ stk.lseq = ((ascii ['L', 'K', 'R']).length : Nat) ∧
          stk.i < stk.lseq) ∧
        turns (ascii ['L', 'K', 'R']).length st0 = .ok stn ∧
        stn.i = ((ascii ['L', 'K', 'R']).length : Nat) ∧
        stn.lseq = ((ascii ['L', 'K', 'R']).length : Nat) ∧ ¬ (stn.i < stn.lseq) ∧
        (∀ fuel, (ascii ['L', 'K', 'R']).length ≤ fuel → loop fuel st0 = .ok stn) ∧
        (∀ fuel, fuel < (ascii ['L', 'K', 'R']).length → loop fuel st0 = .error .fuel) ∧
        (s2c [⟨ascii ['L', 'K', 'R']⟩] session0).isOk = true :=
  ⟨by decide, s2c_loop_bounded _ _ _ (by decide)⟩

theorem slot_done (s : List Byte) (k j : Nat) (hj : j < s.length) (hjk : j < k) :
    ((s.take k).map single ++ List.replicate (s.length - k) R_BlankString)[j]?
      = some ⟨[s[j]]⟩ := by
  have h1 : j < ((s.take k).map single).length := by
    simp only [List.length_map, List.length_take]; omega
  rw [List.getElem?_append_left h1, List.getElem?_map, List.getElem?_take_of_lt hjk,
    List.getElem?_eq_getElem hj]
  rfl

theorem slot_blank (s : List Byte) (k j : Nat) (hk : k ≤ s.length) (hkj : k ≤ j)
    (hj : j < s.length) :
    ((s.take k).map single ++ List.replicate (s.length - k) R_BlankString)[j]?
      = some R_BlankString := by
  have h1 : ((s.take k).map single).length = k := by
    simp only [List.length_map, List.length_take]; omega
  rw [List.getElem?_append_right (by omega), h1, List.getElem?_replicate]
  have : j - k < s.length - k := by omega
  simp [this]

/-- C13: fully constructed result.  For every valid string `s` and every
`k ≤ len(s)`, after `k` turns of the loop the slots `0 .. k-1` of the result
vector hold the one-byte strings of the bytes `0 .. k-1` of `s`, and the slots
`k .. len(s)-1` still hold the blank string of the fresh vector.  When `s2c`
returns, the value is the vector after `len(s)` turns, every slot has been
stored into exactly once, and no element is the blank string. -/
theorem s2c_loop_invariant (s : List Byte) (rest : List CHARSXP) (R : Session)
    (h : ValidString s) :
    ∃ st0, enter (⟨s⟩ :: rest) R = .ok st0 ∧
      (∀ k, k ≤ s.length → ∃ stk, turns k st0 = .ok stk ∧ stk.vec.length = s.length ∧
        (∀ j (hj : j < s.length), j < k → stk.vec[j]? = some ⟨[s[j]]⟩) ∧
        (∀ j, k ≤ j → j < s.length → stk.vec[j]? = some R_BlankString)) ∧
      ∃ v st stn, s2c (⟨s⟩ :: rest) R = .ok (v, st) ∧
        turns s.length st0 = .ok stn ∧ v = stn.vec ∧ v.length = s.length ∧
        (∀ j, j < s.length → storesTo j st.trace = 1) ∧
        (∀ x ∈ v, x ≠ R_BlankString) := by
  refine ⟨_, enter_valid s rest R h, ?_, ?_⟩
  · intro k hk
    refine ⟨_, turns_valid s rest R h k hk, ?_, ?_, ?_⟩
    · simp only [List.length_append, List.length_map, List.length_take,
        List.length_replicate]
      omega
    · intro j hj hjk
      exact slot_done s k j hj hjk
    · intro j hkj hj
      exact slot_blank s k j hk hkj hj
  · refine ⟨_, _, _, s2c_valid s rest R h, turns_valid s rest R h s.length (Nat.le_refl _),
      ?_, by simp, ?_, ?_⟩
    · simp
    · intro j hj
      simp only [finalState]
      rw [storesTo_loopEvents]
      simp [hj]
    · intro x hx
      obtain ⟨b, _, rfl⟩ := List.mem_map.mp hx
      simp [single, R_BlankString]

theorem s2c_loop_invariant_witness :
    ValidString (ascii ['A', 'C', 'G', 'T']) ∧
      ∃ st0, enter [⟨ascii ['A', 'C', 'G', 'T']⟩] session0 = .ok st0 ∧
        (∀ k, k ≤ (ascii ['A', 'C', 'G', 'T']).length → ∃ stk, turns k st0 = .ok stk ∧
          stk.vec.length = (ascii ['A', 'C', 'G', 'T']).length ∧
          (∀ j (hj : j < (ascii ['A', 'C', 'G', 'T']).length), j < k →
            stk.vec[j]? = some ⟨[(ascii ['A', 'C', 'G', 'T'])[j]]⟩) ∧
          (∀ j, k ≤ j → j < (ascii ['A', 'C', 'G', 'T']).length →
            stk.vec[j]? = some R_BlankString)) ∧
        ∃ v st stn, s2c [⟨ascii ['A', 'C', 'G', 'T']⟩] session0 = .ok (v, st) ∧
          turns (ascii ['A', 'C', 'G', 'T']).length st0 = .ok stn ∧ v = stn.vec ∧
          v.length = (ascii ['A', 'C', 'G', 'T']).length ∧
          (∀ j, j < (ascii ['A', 'C', 'G', 'T']).length → storesTo j st.trace = 1) ∧
          (∀ x ∈ v, x ≠ R_BlankString) :=
  ⟨by decide, s2c_loop_invariant _ _ _ (by decide)⟩

/-- C14: balanced protection.  Whenever a run of `s2c` returns, the protection
stack is the one found on entry, so its depth is unchanged (one `PROTECT`, one
`UNPROTECT(1)`), and every `mkChar` and every `SET_STRING_ELT` of the loop ran
under a protection stack that holds the address of the result vector. -/
theorem s2c_protect_balanced (seq : List CHARSXP) (R : Session) (v : List CHARSXP)
    (st : State) (h : s2c seq R = .ok (v, st)) :
    st.ppstack = R.ppstack ∧ st.ppstack.length = R.ppstack.length ∧
      ∀ e ∈ st.trace, e.guardedBy st.chaine := by
  obtain ⟨h1, _, _, h4⟩ := s2c_frame h
  exact ⟨h1, by rw [h1], h4⟩

theorem s2c_protect_balanced_witness :
    s2c [⟨ascii ['a', 'b']⟩] ⟨[7, 5], 9⟩
        = .ok ([⟨ascii ['a']⟩, ⟨ascii ['b']⟩],
            finalState [⟨ascii ['a', 'b']⟩] ⟨[7, 5], 9⟩ (ascii ['a', 'b'])) ∧
      (finalState [⟨ascii ['a', 'b']⟩] ⟨[7, 5], 9⟩ (ascii ['a', 'b'])).ppstack = [7, 5] ∧
      (finalState [⟨ascii ['a', 'b']⟩] ⟨[7, 5], 9⟩ (ascii ['a', 'b'])).ppstack.length = 2 ∧
      ∀ e ∈ (finalState [⟨ascii ['a', 'b']⟩] ⟨[7, 5], 9⟩ (ascii ['a', 'b'])).trace,
        e.guardedBy (finalState [⟨ascii ['a', 'b']⟩] ⟨[7, 5], 9⟩ (ascii ['a', 'b'])).chaine := by
  have h : s2c [⟨ascii ['a', 'b']⟩] ⟨[7, 5], 9⟩
      = .ok ([⟨ascii ['a']⟩, ⟨ascii ['b']⟩],
          finalState [⟨ascii ['a', 'b']⟩] ⟨[7, 5], 9⟩ (ascii ['a', 'b'])) := by
    rfl
  exact ⟨h, s2c_protect_balanced _ _ _ _ h⟩

/-! ### Concatenation, the `int` counter, the terminator, the empty argument -/

theorem validString_append {s t : List Byte} (h : ValidString (s ++ t)) :
    ValidString s ∧ ValidString t := by
  obtain ⟨hz, hl⟩ := h
  simp only [List.length_append, Nat.cast_add] at hl
  refine ⟨⟨fun b hb => hz b (by simp [hb]), by omega⟩,
    ⟨fun b hb => hz b (by simp [hb]), by omega⟩⟩

/-- C15: concatenation homomorphism.  For all strings `s` and `t` whose
concatenation is a valid string, `s2c(s ++ t)` is `s2c(s)` followed by
`s2c(t)`, and `s2c` is the map of the one-byte-string constructor over the
bytes of its input. -/
theorem s2c_append (s t : List Byte) (rest : List CHARSXP) (R : Session)
    (h : ValidString (s ++ t)) :
    (∃ vs vt, s2cValue (⟨s⟩ :: rest) R = some vs ∧ s2cValue (⟨t⟩ :: rest) R = some vt ∧
      s2cValue (⟨s ++ t⟩ :: rest) R = some (vs ++ vt)) ∧
    s2cValue (⟨s ++ t⟩ :: rest) R = some ((s ++ t).map (fun b => ⟨[b]⟩)) := by
  obtain ⟨hs, ht⟩ := validString_append h
  refine ⟨⟨s.map single, t.map single, s2cValue_valid s rest R hs,
    s2cValue_valid t rest R ht, ?_⟩, ?_⟩
  · rw [s2cValue_valid (s ++ t) rest R h, List.map_append]
  · rw [s2cValue_valid (s ++ t) rest R h]; rfl

theorem s2c_append_witness :
    ValidString (ascii ['a', 'b'] ++ ascii ['c']) ∧
      ((∃ vs vt, s2cValue [⟨ascii ['a', 'b']⟩] session0 = some vs ∧
        s2cValue [⟨ascii ['c']⟩] session0 = some vt ∧
        s2cValue [⟨ascii ['a', 'b'] ++ ascii ['c']⟩] session0 = some (vs ++ vt)) ∧
      s2cValue [⟨ascii ['a', 'b'] ++ ascii ['c']⟩] session0
        = some ((ascii ['a', 'b'] ++ ascii ['c']).map (fun b => ⟨[b]⟩))) :=
  ⟨by decide, s2c_append _ _ _ _ (by decide)⟩

theorem toInt_high (L : Nat) (h1 : 2 ^ 31 ≤ L) (h2 : L < 2 ^ 32) :
    toInt L = (L : Int) - 2 ^ 32 := by
  have hm : L % 2 ^ 32 = L := Nat.mod_eq_of_lt h2
  have hn : ¬ (L < 2 ^ 31) := by omega
  unfold toInt
  rw [hm, if_neg hn]

/-- C16: the length and the `int` counter.  For a string `s` without zero
byte: when `len(s) ≤ 2^31 - 1`, the `lseq` the loop is entered with equals
`len(s)`; for every `L` with `2^31 ≤ L < 2^32` the conversion to `int` yields
`L - 2^32`, which is negative and differs from `L`, and when `len(s)` is such
an `L`, `strlen` still finds `len(s)` but the run stops at the request for a
vector of negative length. -/
theorem s2c_lseq_int (s : List Byte) (rest : List CHARSXP) (R : Session) (L : Nat)
    (hnz : ∀ b ∈ s, b ≠ 0) :
    ((s.length : Int) ≤ INT_MAX →
      toInt s.length = (s.length : Nat) ∧
      ∃ st0, enter (⟨s⟩ :: rest) R = .ok st0 ∧ st0.lseq = (s.length : Nat)) ∧
    (2 ^ 31 ≤ L → L < 2 ^ 32 →
      toInt L = (L : Int) - 2 ^ 32 ∧ toInt L < 0 ∧ toInt L ≠ (L : Int)) ∧
    (2 ^ 31 ≤ s.length → s.length < 2 ^ 32 →
      strlen (CHAR ⟨s⟩) = .ok s.length ∧ s2c (⟨s⟩ :: rest) R = .error .negativeLength) := by
  refine ⟨?_, ?_, ?_⟩
  · intro hl
    exact ⟨toInt_of_le _ hl, _, enter_valid s rest R ⟨hnz, hl⟩, rfl⟩
  · intro h1 h2
    have := toInt_high L h1 h2
    refine ⟨this, ?_, ?_⟩ <;> omega
  · intro h1 h2
    have hs : strlen (CHAR ⟨s⟩) = .ok s.length := strlen_append_zero s [] hnz
    have ht := toInt_high s.length h1 h2
    have hneg : toInt s.length < 0 := by omega
    have h0 : STRING_ELT (⟨s⟩ :: rest) 0 = .ok ⟨s⟩ := by simp [STRING_ELT]
    refine ⟨hs, ?_⟩
    simp only [s2c, enter, h0, hs, NEW_CHARACTER, hneg, if_true]

theorem s2c_lseq_int_witness :
    (∀ b ∈ ascii ['a', 'b'], b ≠ 0) ∧
      (toInt (ascii ['a', 'b']).length = ((ascii ['a', 'b']).length : Nat) ∧
        ∃ st0, enter [⟨ascii ['a', 'b']⟩] session0 = .ok st0 ∧
          st0.lseq = ((ascii ['a', 'b']).length : Nat)) ∧
      (toInt (2 ^ 31) = ((2 ^ 31 : Nat) : Int) - 2 ^ 32 ∧ toInt (2 ^ 31) < 0 ∧
        toInt (2 ^ 31) ≠ ((2 ^ 31 : Nat) : Int)) ∧
      (strlen (CHAR ⟨List.replicate (2 ^ 31) 1⟩)
          = .ok (List.replicate (2 ^ 31) (1 : Byte)).length ∧
        s2c [⟨List.replicate (2 ^ 31) 1⟩] session0 = .error .negativeLength) := by
  have hnz : ∀ b ∈ ascii ['a', 'b'], b ≠ 0 := by decide
  have h := s2c_lseq_int (ascii ['a', 'b']) [] session0 (2 ^ 31) hnz
  have hr : ∀ b ∈ List.replicate (2 ^ 31) (1 : Byte), b ≠ 0 := by
    intro b hb
    rw [List.eq_of_mem_replicate hb]
    decide
  have h3 := (s2c_lseq_int (List.replicate (2 ^ 31) 1) [] session0 0 hr).2.2
    (by rw [List.length_replicate]) (by rw [List.length_replicate]; decide)
  exact ⟨hnz, h.1 (by decide), h.2.1 (by decide) (by decide), h3⟩

/-- C17: terminator cut-off.  When the buffer of the first string is
`p ++ [0] ++ q` with no zero byte in `p` (and `len(p)` within `int`), `s2c`
returns what it returns on the string with buffer `p ++ [0]`, namely the
one-byte strings of `p`, and every read of `string` in the run is at an index
below `len(p)`: the bytes `q` after the first zero byte are not consulted. -/
theorem s2c_terminator (x : CHARSXP) (p q : List Byte) (rest : List CHARSXP) (R : Session)
    (hbuf : CHAR x = p ++ [0] ++ q) (hnz : ∀ b ∈ p, b ≠ 0)
    (hlen : (p.length : Int) ≤ INT_MAX) :
    CHAR ⟨p⟩ = p ++ [0] ∧
      s2cValue (x :: rest) R = s2cValue (⟨p⟩ :: rest) R ∧
      s2cValue (x :: rest) R = some (p.map (fun b => ⟨[b]⟩)) ∧
      ∃ v st, s2c (x :: rest) R = .ok (v, st) ∧
        ∀ e ∈ st.trace, e.inRange p.length p.length := by
  have hb : CHAR x = p ++ 0 :: q := by simpa using hbuf
  have hrun := s2c_run x rest R p q hb hnz hlen
  have hval : s2cValue (x :: rest) R = some (p.map single) := by
    simp only [s2cValue, hrun]
  refine ⟨rfl, ?_, hval, _, _, hrun, ?_⟩
  · rw [hval, s2cValue_valid p rest R ⟨hnz, hlen⟩]
  · intro e he
    simp only [finalState] at he
    exact loopEvents_inRange _ _ _ _ (by omega) e he

theorem s2c_terminator_witness :
    CHAR ⟨ascii ['a', 'b'] ++ 0 :: ascii ['c', 'd']⟩
        = ascii ['a', 'b'] ++ [0] ++ (ascii ['c', 'd'] ++ [0]) ∧
      (∀ b ∈ ascii ['a', 'b'], b ≠ 0) ∧
      (((ascii ['a', 'b']).length : Int) ≤ INT_MAX) ∧
      s2cValue [⟨ascii ['a', 'b'] ++ 0 :: ascii ['c', 'd']⟩] session0
        = s2cValue [⟨ascii ['a', 'b']⟩] session0 ∧
      s2cValue [⟨ascii ['a', 'b'] ++ 0 :: ascii ['c', 'd']⟩] session0
        = some [⟨ascii ['a']⟩, ⟨ascii ['b']⟩] := by
  have hbuf : CHAR ⟨ascii ['a', 'b'] ++ 0 :: ascii ['c', 'd']⟩
      = ascii ['a', 'b'] ++ [0] ++ (ascii ['c', 'd'] ++ [0]) := by decide
  have hnz : ∀ b ∈ ascii ['a', 'b'], b ≠ 0 := by decide
  have hlen : ((ascii ['a', 'b']).length : Int) ≤ INT_MAX := by decide
  have h := s2c_terminator _ _ _ [] session0 hbuf hnz hlen
  exact ⟨hbuf, hnz, hlen, h.2.1, h.2.2.1⟩

theorem buffer_split (l : List Byte) :
    ∃ p q, l ++ [0] = p ++ 0 :: q ∧ (∀ b ∈ p, b ≠ 0) ∧ p.length ≤ l.length := by
  induction l with
  | nil => exact ⟨[], [], rfl, by simp, Nat.le_refl _⟩
  | cons a l ih =>
    by_cases ha : a = 0
    · subst ha
      exact ⟨[], l ++ [0], by simp, by simp, Nat.zero_le _⟩
    · obtain ⟨p, q, h1, h2, h3⟩ := ih
      refine ⟨a :: p, q, by simp [h1], ?_, by simp only [List.length_cons]; omega⟩
      intro b hb
      rcases List.mem_cons.mp hb with rfl | hb
      · exact ha
      · exact h2 b hb

/-- C18: the empty argument is not handled.  On the vector without elements
the read of element 0 is out of range and `s2c` produces a fault, not the
empty vector; and for every argument whose first string, if there is one, has a
length within `int`, `s2c` returns exactly when the argument has at least one
element. -/
theorem s2c_empty_collection (seq : List CHARSXP) (R : Session)
    (hlim : ∀ x ∈ seq.head?, (x.bytes.length : Int) ≤ INT_MAX) :
    s2c [] R = .error .subscript ∧ s2cValue [] R = none ∧
      ((s2c seq R).isOk = true ↔ seq ≠ []) := by
  have h0 : s2c [] R = .error .subscript := rfl
  refine ⟨h0, rfl, ?_⟩
  cases seq with
  | nil => rw [h0]; simp [Except.isOk, Except.toBool]
  | cons x rest =>
    obtain ⟨p, q, h1, h2, h3⟩ := buffer_split x.bytes
    have hx : (x.bytes.length : Int) ≤ INT_MAX := hlim x (by simp)
    have hp : (p.length : Int) ≤ INT_MAX := by omega
    rw [s2c_run x rest R p q h1 h2 hp]
    simp [Except.isOk, Except.toBool]

theorem s2c_empty_collection_witness :
    (∀ x ∈ ([⟨ascii ['a']⟩, ⟨ascii ['b', 'c']⟩] : List CHARSXP).head?,
        (x.bytes.length : Int) ≤ INT_MAX) ∧
      s2c [] session0 = .error .subscript ∧ s2cValue [] session0 = none ∧
      ((s2c [⟨ascii ['a']⟩, ⟨ascii ['b', 'c']⟩] session0).isOk = true ↔
        ([⟨ascii ['a']⟩, ⟨ascii ['b', 'c']⟩] : List CHARSXP) ≠ []) := by
  have hlim : ∀ x ∈ ([⟨ascii ['a']⟩, ⟨ascii ['b', 'c']⟩] : List CHARSXP).head?,
      (x.bytes.length : Int) ≤ INT_MAX := by
    intro x hx
    simp only [List.head?_cons, Option.mem_def, Option.some.injEq] at hx
    subst hx
    decide
  exact ⟨hlim, s2c_empty_collection _ session0 hlim⟩

end Protr
